import Mathlib

/-!
# Verification of the Newick comparison core

A shallow embedding of the Newick comparison engine of
`Extracting-Phylogenies-from-Images-using-AI`, together with proofs about it.

The embedded code lives in
`src/extracting_phylogenies/utilities/utilities.py` (text transforms over
Newick strings, format classification) and
`src/extracting_phylogenies/newick_comparison/newick_comparison.py`
(taxon alignment, taxon/ topology/ distance metrics, report row assembly).

Modelling conventions:
* Python strings are `List Char` (`Str` below); Python regular-expression
  substitutions are modelled by explicit left-to-right scanners with the same
  match semantics as the concrete patterns in the source (the `\d`/`\w`
  character classes are read as their ASCII parts).
* Python numbers are exact rationals (`ℚ`); `round(x, 4)` is exact
  round-half-to-even at four decimal places (`round4`).
* Python exceptions are `Except PyErr`; `ZeroDivisionError` sites in the
  source become explicit denominator tests in source order.
* The third-party `ete3` parser is an external collaborator; where the source
  merely dispatches on its success (`get_newick_format`) the parser is an
  abstract oracle argument.
-/
namespace PhyloSpec

/-- Python strings are modelled as lists of characters. -/
abbrev Str := List Char

/-- The Python exceptions raised by the embedded code. -/
inductive PyErr where
  | zeroDivision
  | valueError
  deriving DecidableEq, Repr

/-! ## utilities.remove_support_vals

`re.sub(r"(?<=\))\d", "", newick)`: every single digit whose predecessor in
the original string is a closing parenthesis is deleted.  The lookbehind
inspects the original subject string, so the scanner below carries the
previous original character. -/
/-- Scanner for `remove_support_vals`: drop a digit whose original
predecessor is a closing parenthesis. -/
def removeSupAux (prev : Char) : Str → Str
  | [] => []
  | c :: rest =>
    if prev = ')' ∧ c.isDigit then removeSupAux c rest
    else c :: removeSupAux c rest

/-- Embeds `utilities.remove_support_vals`.  The first character of the
string has no predecessor, so the initial `prev` is a sentinel that is not a
closing parenthesis. -/
def remove_support_vals (newick : Str) : Str :=
  removeSupAux ' ' newick

/-! ## utilities.remove_distances

`re.sub(r":\d+(\.\d+){0,1}", "", newick)`: non-overlapping, left-to-right,
greedy matches of a colon followed by digits and an optional fraction are
deleted.  The scanner below is the match automaton of that pattern; the
states record how much of a candidate match has been consumed. -/
/-- Match states for the pattern `:\d+(\.\d+){0,1}`. -/
inductive RDState where
  | normal   -- outside any candidate match
  | colon    -- a pending `:` was read, waiting for a first digit
  | intPart  -- inside `\d+` (the match is already committed)
  | dot      -- a pending `.` was read directly after `\d+`
  | fracPart -- inside the fraction digits
  deriving DecidableEq, Repr

open RDState in
/-- Scanner for `remove_distances`. -/
def rdAux : RDState → Str → Str
  | normal, [] => []
  | colon, [] => [':']
  | intPart, [] => []
  | dot, [] => ['.']
  | fracPart, [] => []
  | normal, c :: rest => if c = ':' then rdAux colon rest else c :: rdAux normal rest
  | colon, c :: rest =>
    if c.isDigit then rdAux intPart rest
    else if c = ':' then ':' :: rdAux colon rest
    else ':' :: c :: rdAux normal rest
  | intPart, c :: rest =>
    if c.isDigit then rdAux intPart rest
    else if c = '.' then rdAux dot rest
    else if c = ':' then rdAux colon rest
    else c :: rdAux normal rest
  | dot, c :: rest =>
    if c.isDigit then rdAux fracPart rest
    else if c = ':' then '.' :: rdAux colon rest
    else '.' :: c :: rdAux normal rest
  | fracPart, c :: rest =>
    if c.isDigit then rdAux fracPart rest
    else if c = ':' then rdAux colon rest
    else c :: rdAux normal rest

/-- Embeds `utilities.remove_distances`. -/
def remove_distances (newick : Str) : Str :=
  rdAux RDState.normal newick

/-! ## utilities.remove_taxa_from_newick and utilities.get_taxa

Both use the pattern `(?<=[,(])[\d\w\.\-\"\'#\/]+(?=[\:\)\,])`: a maximal
run of taxon characters whose original predecessor is `,` or `(` and whose
successor is `:`, `)` or `,`.  Because the taxon-character class is disjoint
from both delimiter classes, a match is always a maximal run, and scanning
can be done with one accumulator holding the pending run plus a flag telling
whether the character before the run was `,` or `(`. -/
/-- The characters allowed inside a taxon: `\d`, `\w` (ASCII reading) and
`_ . - " ' / #`. -/
def tokChar (c : Char) : Bool :=
  c.isAlphanum || c = '_' || c = '.' || c = '-' || c = '"' || c = '\'' ||
    c = '#' || c = '/'

/-- Lookahead class of the pattern: `:`, `)` or `,`. -/
def delimAfter (c : Char) : Bool :=
  c = ':' || c = ')' || c = ','

/-- Lookbehind class of the pattern: `,` or `(`. -/
def delimBefore (c : Char) : Bool :=
  c = ',' || c = '('

/-- Scanner for `remove_taxa_from_newick`.  `flag` says whether the pending
run is preceded by `,` or `(`; `pend` is the pending run of taxon
characters, flushed when a non-taxon character (or the end) is reached. -/
def rtAux (flag : Bool) (pend : Str) : Str → Str
  | [] => pend
  | c :: rest =>
    if tokChar c then rtAux flag (pend ++ [c]) rest
    else
      (if flag && delimAfter c && !pend.isEmpty then [] else pend) ++
        c :: rtAux (delimBefore c) [] rest

/-- Embeds `utilities.remove_taxa_from_newick`. -/
def remove_taxa_from_newick (newick : Str) : Str :=
  rtAux false [] newick

/-- Scanner for `get_taxa`: same walk as `rtAux`, but collecting the matched
runs instead of deleting them. -/
def gtAux (flag : Bool) (pend : Str) : Str → List Str
  | [] => []
  | c :: rest =>
    if tokChar c then gtAux flag (pend ++ [c]) rest
    else
      (if flag && delimAfter c && !pend.isEmpty then [pend] else []) ++
        gtAux (delimBefore c) [] rest

/-- Embeds `utilities.get_taxa`: all taxa of a Newick string in
left-to-right order. -/
def get_taxa (newick : Str) : List Str :=
  gtAux false [] newick

/-! ## utilities.is_newick and utilities.get_newick_format

`is_newick` calls the external `ete3` parser and reports success; it is
modelled by an abstract oracle `p : ℕ → Str → Bool` giving the parser's
verdict for each ete3 format number.  The source has `if format:`, so the
falsy format `0` falls through to `Tree(newick)`, whose ete3 default is
format `0` again. -/
/-- Embeds `utilities.is_newick` over an abstract parser oracle. -/
def is_newick (p : ℕ → Str → Bool) (newick : Str) (format : ℕ) : Bool :=
  if format ≠ 0 then p format newick else p 0 newick

/-- Embeds `utilities.get_newick_format`: try formats 100, 9, 5, 0 in that
order, return the first that parses, otherwise raise `ValueError`. -/
def get_newick_format (p : ℕ → Str → Bool) (newick : Str) : Except Str ℕ :=
  if is_newick p newick 100 then .ok 100
  else if is_newick p newick 9 then .ok 9
  else if is_newick p newick 5 then .ok 5
  else if is_newick p newick 0 then .ok 0
  else .error "Newick is not valid.".data

/-- Specification-side reading of the classifier: the first format in the
fixed priority list `[100, 9, 5, 0]` accepted by the parser. -/
def firstAcceptedFormat (p : ℕ → Str → Bool) (newick : Str) : Except Str ℕ :=
  match [100, 9, 5, 0].find? (fun f => p f newick) with
  | some f => .ok f
  | none => .error "Newick is not valid.".data

/-! ## Idempotence of remove_distances

After one pass of `rdAux` no colon of the output is followed by a digit, so
a second pass can never start a match and is the identity. -/
/-- The string has no colon immediately followed by a digit, i.e. no
starting point for a `:\d+(\.\d+){0,1}` match. -/
def noColonDigit : Str → Bool
  | [] => true
  | [_] => true
  | a :: b :: rest => !(a = ':' && b.isDigit) && noColonDigit (b :: rest)

/-- The first character, if any, is not a digit. -/
def headNotDigit : Str → Bool
  | [] => true
  | c :: _ => !c.isDigit

/-! ## Idempotence of remove_taxa_from_newick

The scanner keeps every non-taxon character, so a kept run sees the same
neighbours in the output as in the input; a second pass therefore finds no
match.  `nmAux` is the decision procedure for "a pass starting in state
`(flag, pendNE)` deletes nothing". -/
/-- Decides that a `remove_taxa_from_newick` pass over the string performs
no deletion: at every flush point the match condition fails. -/
def nmAux (flag pendNE : Bool) : Str → Bool
  | [] => true
  | c :: rest =>
    if tokChar c then nmAux flag true rest
    else !(flag && delimAfter c && pendNE) && nmAux (delimBefore c) false rest

/-! ## newick_comparison.hamming_distance -/
/-- Embeds `newick_comparison.hamming_distance`: raise `ValueError` on
length mismatch, otherwise count the indices at which the strings differ
(the source walks `range(len(str1))` comparing `str1[index]` with
`str2[index]`). -/
def hamming_distance (str1 str2 : Str) : Except PyErr ℕ :=
  if str1.length ≠ str2.length then .error .valueError
  else .ok (((List.range str1.length).filter
    (fun index => !(str1.getD index ' ' == str2.getD index ' '))).length)

/-! ## Rounding, edit distance and the greedy taxon aligner -/
/-- Decidable equality for the `Except` results of the embedded code. -/
instance {ε α : Type} [DecidableEq ε] [DecidableEq α] :
    DecidableEq (Except ε α) := fun a b =>
  match a, b with
  | .ok x, .ok y =>
    if h : x = y then isTrue (by rw [h])
    else isFalse (fun hh => h (by injection hh))
  | .error x, .error y =>
    if h : x = y then isTrue (by rw [h])
    else isFalse (fun hh => h (by injection hh))
  | .ok _, .error _ => isFalse (fun hh => by injection hh)
  | .error _, .ok _ => isFalse (fun hh => by injection hh)

/-- Exact model of Python `round(_, 4)` as used by the source: round half to
even at the fourth decimal place (Python floats are modelled as exact
rationals throughout). -/
def roundHalfEven (q : ℚ) : ℤ :=
  let f : ℤ := ⌊q⌋
  let r : ℚ := q - f
  if r < 1/2 then f
  else if 1/2 < r then f + 1
  else if f % 2 = 0 then f else f + 1

/-- Python `round(q, 4)`. -/
def round4 (q : ℚ) : ℚ :=
  (roundHalfEven (q * 10000) : ℚ) / 10000

/-- Levenshtein distance with substitution cost 1 and no transpositions:
the semantics of `nltk.edit_distance(a, b, substitution_cost=1,
transpositions=False)` called by the source.  The structural fuel makes the
definition kernel-evaluable; `a.length + b.length` fuel always suffices
because every recursive call shortens the combined length, so the `0` fuel
case below is unreachable. -/
def levF : ℕ → Str → Str → ℕ
  | _, [], b => b.length
  | _, a :: as, [] => (a :: as).length
  | 0, _ :: _, _ :: _ => 0
  | fuel + 1, a :: as, b :: bs =>
    if a = b then levF fuel as bs
    else 1 + min (levF fuel as (b :: bs))
      (min (levF fuel (a :: as) bs) (levF fuel as bs))

/-- Edit distance between two taxa. -/
def edit_distance (a b : Str) : ℕ :=
  levF (a.length + b.length) a b

/-- Embeds `newick_comparison.edit_distance_ratio`:
`1 - edit_distance / max(len, len)`. -/
def edit_distance_ratio (original_taxon generated_taxon : Str) : ℚ :=
  1 - (edit_distance original_taxon generated_taxon : ℚ) /
    ((max original_taxon.length generated_taxon.length : ℕ) : ℚ)

/-- One comparison step of the score maximum: keep the incumbent unless the
challenger scores strictly higher (Python's `max` keeps the first of
ties). -/
def pickBetter (original_taxon : Str) (best : Str × ℚ) (g2 : Str) : Str × ℚ :=
  if edit_distance_ratio original_taxon g2 > best.2 then
    (g2, edit_distance_ratio original_taxon g2)
  else best

/-- Python `max(score_dict, key=score_dict.get)` together with
`max(score_dict.values())` over the still-available generated pool: the
first pool entry (in insertion order) attaining the maximal similarity
score, paired with that score.  Duplicates in the pool collapse to a single
dict key with the same score, so a strict-comparison scan of the raw pool
elects the same winner as the dict would. -/
def bestMatch (original_taxon : Str) : List Str → Option (Str × ℚ)
  | [] => none
  | g :: gs =>
    some (gs.foldl (pickBetter original_taxon)
      (g, edit_distance_ratio original_taxon g))

/-- Python dict assignment `d[k] = v`: overwrite in place when the key is
present (keeping its position), append otherwise. -/
def dinsert (d : List (Str × Str)) (k v : Str) : List (Str × Str) :=
  if k ∈ d.map Prod.fst then
    d.map (fun p => if p.1 = k then (k, v) else p)
  else d ++ [(k, v)]

/-- One iteration of `get_taxon_pairs_greedy`'s loop over the original
taxa: score the current original taxon against every still-available
generated taxon; if the best score exceeds 0.75 assign that generated taxon
and remove its first occurrence from the pool (`list.remove`), otherwise
assign the empty string. -/
def greedyStep (st : List (Str × Str) × List Str) (original_taxon : Str) :
    List (Str × Str) × List Str :=
  match bestMatch original_taxon st.2 with
  | some (g, sc) =>
    if sc > 3/4 then (dinsert st.1 original_taxon g, st.2.erase g)
    else (dinsert st.1 original_taxon [], st.2)
  | none => (dinsert st.1 original_taxon [], st.2)

/-- Embeds `newick_comparison.get_taxon_pairs_greedy` (the resulting dict
in insertion order).  The source's length-mismatch branch only logs, and
the mutation of the caller's `generated_taxa` list (via `list.remove`) is
invisible to its one caller, which reads the list only before the call, so
the pure fold is equivalent. -/
def get_taxon_pairs_greedy (original_taxa generated_taxa : List Str) :
    List (Str × Str) :=
  (original_taxa.foldl greedyStep ([], generated_taxa)).1

/-- The non-empty values of a taxon pair map. -/
def nonemptyVals (d : List (Str × Str)) : List Str :=
  (d.map Prod.snd).filter (fun v => !v.isEmpty)

/-! ## newick_comparison.Comparison_Job.compare_taxa -/
/-- The metric record built by `compare_taxa`. -/
structure TaxaDict where
  taxa_count_original : ℕ
  taxa_count_generated : ℕ
  correct_taxa_ratio : ℚ
  count_equal_length : ℕ
  count_unequal_length : ℕ
  mismatches : List Str
  mean_hamming_distance : ℚ
  mean_hamming_distance_ratio : ℚ
  mean_edit_distance : ℚ
  mean_edit_distance_total : ℚ
  mean_edit_ratio : ℚ
  mean_edit_ratio_total : ℚ
  deriving DecidableEq, Repr

/-- The Hamming/length bookkeeping loop of `compare_taxa` over the taxon
pairs, returning `(accu_hamming_distances, accu_hamming_ratios,
equal_length_counter, unequal_length_counter, mismatches)`.  A matched pair
of equal lengths accumulates its Hamming distance and ratio; a matched pair
of unequal lengths and an unmatched original taxon are punished with the
full original length (ratio contribution 0). -/
def taxaLoop : List (Str × Str) → ℕ × ℚ × ℕ × ℕ × List Str
  | [] => (0, 0, 0, 0, [])
  | (original, generated) :: rest =>
    let (d, r, e, u, m) := taxaLoop rest
    if generated.isEmpty = false then
      if original.length = generated.length then
        let hdist := (original.zip generated).countP (fun p => !(p.1 == p.2))
        (d + hdist, r + (1 - (hdist : ℚ) / (original.length : ℚ)), e + 1, u, m)
      else
        (d + original.length, r, e, u + 1, m)
    else
      (d + original.length, r, e, u, original :: m)

/-- The edit-distance loop of `compare_taxa` over the taxon pairs, returning
`(accu_edit_distances, accu_edit_ratios)`; an unmatched pair contributes
`edit_distance(original, "") = len(original)` and ratio 0. -/
def editLoop : List (Str × Str) → ℕ × ℚ
  | [] => (0, 0)
  | (original, generated) :: rest =>
    let (d, r) := editLoop rest
    let ed := edit_distance original generated
    (d + ed, r + (1 - (ed : ℚ) /
      ((max original.length generated.length : ℕ) : ℚ)))

/-- Embeds `Comparison_Job.compare_taxa`: the divisions of the source are
guarded in source order, a zero denominator raising `ZeroDivisionError`
exactly where Python would. -/
def compare_taxa (original_newick generated_newick : Str) :
    Except PyErr TaxaDict :=
  let original_taxa := get_taxa original_newick
  let generated_taxa := get_taxa generated_newick
  let taxon_pairs := get_taxon_pairs_greedy original_taxa generated_taxa
  if original_taxa.length = 0 then .error .zeroDivision
  else
    match taxaLoop taxon_pairs, editLoop taxon_pairs with
    | (ad, ar, e, u, mm), (ed, er) =>
      if taxon_pairs.length = 0 then .error .zeroDivision
      else if taxon_pairs.length - mm.length = 0 then .error .zeroDivision
      else .ok {
        taxa_count_original := original_taxa.length
        taxa_count_generated := generated_taxa.length
        correct_taxa_ratio := round4
          ((taxon_pairs.countP (fun p => p.1 == p.2) : ℚ) /
            (original_taxa.length : ℚ))
        count_equal_length := e
        count_unequal_length := u
        mismatches := mm
        mean_hamming_distance := round4 ((ad : ℚ) / (original_taxa.length : ℚ))
        mean_hamming_distance_ratio := round4 (ar / (original_taxa.length : ℚ))
        mean_edit_distance := round4 ((ed : ℚ) / (taxon_pairs.length : ℚ))
        mean_edit_distance_total := round4
          ((ed : ℚ) / ((taxon_pairs.length - mm.length : ℕ) : ℚ))
        mean_edit_ratio := round4
          (er / ((taxon_pairs.length - mm.length : ℕ) : ℚ))
        mean_edit_ratio_total := round4 (er / (taxon_pairs.length : ℚ)) }

/-! ## The spelling-correction loop of compare_topology / compare_distances -/
/-- Python `str.replace` for a non-empty pattern: replace the leftmost
occurrences, non-overlapping, left to right.  The structural fuel makes the
definition kernel-evaluable; `s.length` fuel suffices because every step
consumes at least one character. -/
def pyReplaceF : ℕ → Str → Str → Str → Str
  | _, s, [], _ => s
  | 0, s, _, _ => s
  | _ + 1, [], _, _ => []
  | fuel + 1, c :: rest, old, new =>
    if old.isPrefixOf (c :: rest) then
      new ++ pyReplaceF fuel ((c :: rest).drop old.length) old new
    else c :: pyReplaceF fuel rest old new

/-- Python `s.replace(old, new)` (the empty pattern inserts `new` at every
boundary, as Python does). -/
def pyReplace (s old new : Str) : Str :=
  if old.isEmpty then new ++ s.foldr (fun c acc => c :: new ++ acc) []
  else pyReplaceF s.length s old new

/-- Embeds the renaming loop of `Comparison_Job.compare_topology` and
`Comparison_Job.compare_distances`:

  `for original_taxon, generated_taxon in taxa_pairs.items():`
  `    generated.replace(generated_taxon, original_taxon)`

The value returned by `str.replace` is never assigned, so the loop state is
unchanged; the discarded call is kept to mirror the source. -/
def correct_spelling (taxa_pairs : List (Str × Str)) (generated : Str) :
    Str :=
  taxa_pairs.foldl
    (fun g kv =>
      let _replaced := pyReplace g kv.2 kv.1
      g)
    generated

/-- The renaming step as claim C2 states it, given as a second definition to
compare against the source's loop: every occurrence of a non-empty pair
value in the generated text is rewritten to the corresponding original
key. -/
def correct_spelling_spec (taxa_pairs : List (Str × Str)) (generated : Str) :
    Str :=
  taxa_pairs.foldl
    (fun g kv => if kv.2.isEmpty then g else pyReplace g kv.2 kv.1)
    generated

/-! ## newick_comparison.Comparison_Job.compare_topology (derived metrics)

The tree comparison itself (`ete3`'s `Tree.compare`) is an external
collaborator; the in-repository computation derives the published metrics
from its result dict.  `compare_topology_calc` takes the fields of that
dict (`rf`, `max_rf`, `ref_edges_in_source`, the sizes of `ref_edges` and
`common_edges`) plus the two multifurcation counts, and performs the
source's arithmetic, with each division guarded in source order. -/
/-- The metric record built by `compare_topology`. -/
structure TopoDict where
  rf : ℚ
  max_rf : ℚ
  rf_ratio : ℚ
  ref_edges_in_source : ℚ
  count_original_edges : ℕ
  count_missing_edges : ℕ
  count_common_edges : ℕ
  correct_edges_ratio : ℚ
  count_multifurcations_original : ℕ
  count_multifurcations_generated : ℕ
  deriving DecidableEq, Repr

/-- The derived-metric computation of `compare_topology`
(`rf_ratio = round(1 - rf / max_rf, 4)` at line 313 has no guard, so
`max_rf = 0` raises `ZeroDivisionError`; likewise `correct_edges_ratio`
with no original edges). -/
def compare_topology_calc (rf max_rf ref_edges_in_source : ℚ)
    (count_ref_edges count_common_edges : ℕ)
    (multifurcations_original multifurcations_generated : ℕ) :
    Except PyErr TopoDict :=
  if max_rf = 0 then .error .zeroDivision
  else if count_ref_edges = 0 then .error .zeroDivision
  else .ok {
    rf := rf
    max_rf := max_rf
    rf_ratio := round4 (1 - rf / max_rf)
    ref_edges_in_source := ref_edges_in_source
    count_original_edges := count_ref_edges
    count_missing_edges := count_ref_edges - count_common_edges
    count_common_edges := count_common_edges
    correct_edges_ratio := round4
      ((count_common_edges : ℚ) / (count_ref_edges : ℚ))
    count_multifurcations_original := multifurcations_original
    count_multifurcations_generated := multifurcations_generated }

/-! ## Report row assembly (main and get_tsv_entry)

Filenames come from `get_filename` and float rendering from Python's
`str`, both external; they are parameters (`name1`, `name2`, `showQ`). -/
/-- The metric record built by `compare_distances`. -/
structure DistDict where
  mean_abs_diff : ℚ
  median_abs_diff : ℚ
  mean_neg_diff : ℚ
  median_neg_diff : ℚ
  mean_pos_diff : ℚ
  median_pos_diff : ℚ
  mean_pairwise_diff : ℚ
  median_pairwise_diff : ℚ
  deriving DecidableEq, Repr

/-- Decimal rendering of a natural number (Python `str(int)`). -/
def natStr (n : ℕ) : Str :=
  (Nat.repr n).data

/-- The taxa block of a `.tsv` entry: 11 values, or the source's literal
11-cell `None` run. -/
def taxaBlock (showQ : ℚ → Str) : Option TaxaDict → Str
  | some t =>
    natStr t.taxa_count_original ++ '\t' :: natStr t.taxa_count_generated ++
      '\t' :: showQ t.correct_taxa_ratio ++ '\t' ::
      natStr t.count_equal_length ++ '\t' ::
      natStr t.count_unequal_length ++ '\t' ::
      showQ t.mean_hamming_distance ++ '\t' ::
      showQ t.mean_hamming_distance_ratio ++ '\t' ::
      showQ t.mean_edit_distance ++ '\t' ::
      showQ t.mean_edit_distance_total ++ '\t' ::
      showQ t.mean_edit_ratio ++ '\t' ::
      showQ t.mean_edit_ratio_total ++ ['\t']
  | none =>
    "None\tNone\tNone\tNone\tNone\tNone\tNone\tNone\tNone\tNone\tNone\t".data

/-- The distance block: 8 values, or the source's literal `None` run (which
has 11 cells though the header has 8 distance columns — preserved
faithfully). -/
def distBlock (showQ : ℚ → Str) : Option DistDict → Str
  | some d =>
    showQ d.mean_abs_diff ++ '\t' :: showQ d.median_abs_diff ++ '\t' ::
      showQ d.mean_neg_diff ++ '\t' :: showQ d.median_neg_diff ++ '\t' ::
      showQ d.mean_pos_diff ++ '\t' :: showQ d.median_pos_diff ++ '\t' ::
      showQ d.mean_pairwise_diff ++ '\t' ::
      showQ d.median_pairwise_diff ++ ['\t']
  | none =>
    "None\tNone\tNone\tNone\tNone\tNone\tNone\tNone\tNone\tNone\tNone\t".data

/-- The topology block: 10 values (the source prints
`count_multifurcations_original` twice, preserved faithfully), or the
source's literal 8-cell `None` run. -/
def topoBlock (showQ : ℚ → Str) : Option TopoDict → Str
  | some t =>
    showQ t.rf ++ '\t' :: showQ t.max_rf ++ '\t' :: showQ t.rf_ratio ++
      '\t' :: natStr t.count_original_edges ++ '\t' ::
      showQ t.ref_edges_in_source ++ '\t' ::
      natStr t.count_missing_edges ++ '\t' ::
      natStr t.count_common_edges ++ '\t' ::
      showQ t.correct_edges_ratio ++ '\t' ::
      natStr t.count_multifurcations_original ++ '\t' ::
      natStr t.count_multifurcations_original ++ ['\t']
  | none => "None\tNone\tNone\tNone\tNone\tNone\tNone\tNone\t".data

/-- Python `s.rstrip("\n")`. -/
def rstripNewline (s : Str) : Str :=
  (s.reverse.dropWhile (fun c => c = '\n')).reverse

/-- Embeds `Comparison_Job.get_tsv_entry`. -/
def get_tsv_entry (name1 name2 : Str)
    (format_original format_generated : ℕ) (param_entry : Option Str)
    (showQ : ℚ → Str) (taxa_comp : Option TaxaDict)
    (dist_comp : Option DistDict) (topo_comp : Option TopoDict) : Str :=
  let e := name1 ++ '\t' :: name2 ++ '\t' ::
    natStr format_original ++ '\t' :: natStr format_generated ++ '\t' ::
    (taxaBlock showQ taxa_comp ++ distBlock showQ dist_comp ++
      topoBlock showQ topo_comp ++
      (match param_entry with | some p => p | none => []))
  rstripNewline e ++ ['\n']

/-- Embeds the metric-selection logic of `main` (lines 499-513): when
either input is taxa-only (format 9) all three comparisons run; otherwise
when either input is topology-only (format 100) none of them runs (the
`TODO` branch) and all three dicts stay `None`; otherwise all three run. -/
def choose_metrics (format_original format_generated : ℕ) (taxa : TaxaDict)
    (dist : DistDict) (topo : TopoDict) :
    Option TaxaDict × Option DistDict × Option TopoDict :=
  let topo_only := format_original = 100 ∨ format_generated = 100
  let taxa_only := format_original = 9 ∨ format_generated = 9
  if taxa_only then (some taxa, some dist, some topo)
  else if topo_only then (none, none, none)
  else (some taxa, some dist, some topo)

/-! ## Invariants of the greedy aligner (claim C7)

Walking the fold with an explicit state invariant: the dict keys are the
processed originals (exactly appended when the originals are distinct), and
for every non-empty value `v` the number of occurrences of `v` among the
dict values plus those left in the pool never grows, so a duplicate-free
generated list yields pairwise-distinct non-empty values. -/
/-- The number of entries of the pair map carrying the value `v`. -/
def vcount (d : List (Str × Str)) (v : Str) : ℕ :=
  (d.map Prod.snd).count v

/-! ## A model of Newick documents (claim C6)

`get_taxa` promises the leaf labels of the document in order.  To state
that, Newick documents are generated from a tree model: a leaf is an
optional-length label, an internal node a non-empty parenthesised list of
children; each node may carry a `:length` annotation (formats 5/9/100 of
the repository; a topology-only document is the same tree with empty leaf
labels).  `serT t ++ ";"` is the document of the tree `t`. -/
mutual
inductive NTree where
  | leaf : Str → Option Str → NTree
  | node : NForest → Option Str → NTree
inductive NForest where
  | fnil : NForest
  | fcons : NTree → NForest → NForest
end

/-- The `:length` suffix of a node. -/
def serDist : Option Str → Str
  | none => []
  | some ds => ':' :: ds

mutual
/-- Newick serialization of a tree (without the final `;`). -/
def serT : NTree → Str
  | .leaf n d => n ++ serDist d
  | .node cs d => '(' :: (serF cs ++ ')' :: serDist d)
/-- Serialization of a comma-separated child list. -/
def serF : NForest → Str
  | .fnil => []
  | .fcons t NForest.fnil => serT t
  | .fcons t (NForest.fcons t2 ts) => serT t ++ ',' :: serF (.fcons t2 ts)
end

mutual
/-- The leaf labels of a tree in left-to-right order. -/
def leafNamesT : NTree → List Str
  | .leaf n _ => [n]
  | .node cs _ => leafNamesF cs
def leafNamesF : NForest → List Str
  | .fnil => []
  | .fcons t ts => leafNamesT t ++ leafNamesF ts
end

mutual
/-- The number of leaves of a tree. -/
def leafCountT : NTree → ℕ
  | .leaf _ _ => 1
  | .node cs _ => leafCountF cs
def leafCountF : NForest → ℕ
  | .fnil => 0
  | .fcons t ts => leafCountT t + leafCountF ts
end

/-- A well-formed branch length: absent, or a non-empty run of taxon-class
characters (digits and dots are both in the class). -/
def wfDist : Option Str → Bool
  | none => true
  | some ds => !ds.isEmpty && ds.all tokChar

mutual
/-- Well-formedness for the labelled fragment: every leaf label is a
non-empty run of taxon-class characters, every branch length is
well-formed. -/
def wfT : NTree → Bool
  | .leaf n d => !n.isEmpty && n.all tokChar && wfDist d
  | .node cs d => wfF cs && wfDist d
def wfF : NForest → Bool
  | .fnil => true
  | .fcons t ts => wfT t && wfF ts
end

/-- A two-leaf labelled tree: `(A:1,B:2);`. -/
def sampleForest : NForest :=
  .fcons (.leaf "A".data (some "1".data))
    (.fcons (.leaf "B".data (some "2".data)) .fnil)

/-- A pair of unlabelled leaves: `(,)`. -/
def emptyPair : NTree :=
  .node (.fcons (.leaf [] none) (.fcons (.leaf [] none) .fnil)) none

/-- The four-leaf topology-only tree of `((,),(,));`. -/
def topoOnlyTree : NTree :=
  .node (.fcons emptyPair (.fcons emptyPair .fnil)) none

/-- An all-zero taxa record (only used to exercise the report row). -/
def zeroTaxaDict : TaxaDict :=
  { taxa_count_original := 0, taxa_count_generated := 0,
    correct_taxa_ratio := 0, count_equal_length := 0,
    count_unequal_length := 0, mismatches := [],
    mean_hamming_distance := 0, mean_hamming_distance_ratio := 0,
    mean_edit_distance := 0, mean_edit_distance_total := 0,
    mean_edit_ratio := 0, mean_edit_ratio_total := 0 }

/-- An all-zero distance record. -/
def zeroDistDict : DistDict :=
  { mean_abs_diff := 0, median_abs_diff := 0, mean_neg_diff := 0,
    median_neg_diff := 0, mean_pos_diff := 0, median_pos_diff := 0,
    mean_pairwise_diff := 0, median_pairwise_diff := 0 }

/-- An all-zero topology record. -/
def zeroTopoDict : TopoDict :=
  { rf := 0, max_rf := 0, rf_ratio := 0, ref_edges_in_source := 0,
    count_original_edges := 0, count_missing_edges := 0,
    count_common_edges := 0, correct_edges_ratio := 0,
    count_multifurcations_original := 0,
    count_multifurcations_generated := 0 }

/-- The 30 `None` cells of a row with no metric group computed (11 taxa
cells, 11 distance cells, 8 topology cells, as the source emits them). -/
def noneCells30 : Str :=
  ("None\tNone\tNone\tNone\tNone\tNone\tNone\tNone\tNone\tNone\tNone\t" ++
   "None\tNone\tNone\tNone\tNone\tNone\tNone\tNone\tNone\tNone\tNone\t" ++
   "None\tNone\tNone\tNone\tNone\tNone\tNone\tNone\t").data

/-- The `None` run of such a row together with its terminating newline. -/
def allNoneCells : Str :=
  noneCells30 ++ ['\n']

/-! ## Proofs

First the supporting lemmas (scanner runs, fold invariants of the greedy
aligner, the Newick serialization scan), then one theorem per claim. -/

theorem noColonDigit_cons {a : Char} {l : Str}
    (h1 : a = ':' → headNotDigit l = true) (h2 : noColonDigit l = true) :
    noColonDigit (a :: l) = true := by
  cases l with
  | nil => rfl
  | cons b t =>
    simp only [noColonDigit, Bool.and_eq_true, Bool.not_eq_true']
    refine ⟨?_, h2⟩
    by_cases ha : a = ':'
    · have hb : b.isDigit = false := by
        have hh := h1 ha
        simpa [headNotDigit] using hh
      simp [ha, hb]
    · simp [ha]

theorem noColonDigit_of_cons {a : Char} {l : Str}
    (h : noColonDigit (a :: l) = true) : noColonDigit l = true := by
  cases l with
  | nil => rfl
  | cons b t =>
    simp only [noColonDigit, Bool.and_eq_true] at h
    exact h.2

theorem headNotDigit_of_colon_cons {l : Str}
    (h : noColonDigit (':' :: l) = true) : headNotDigit l = true := by
  cases l with
  | nil => rfl
  | cons b t =>
    simp only [noColonDigit, Bool.and_eq_true, Bool.not_eq_true'] at h
    simp only [headNotDigit, Bool.not_eq_true']
    simpa using h.1

/-- One pass of the `remove_distances` scanner leaves no colon-digit pair,
and from every state but `normal` the output cannot start with a digit. -/
theorem rdAux_noColonDigit (l : Str) :
    ∀ s : RDState, noColonDigit (rdAux s l) = true ∧
      (s ≠ RDState.normal → headNotDigit (rdAux s l) = true) := by
  induction l with
  | nil => intro s; cases s <;> exact ⟨by decide, fun _ => by decide⟩
  | cons c rest ih =>
    intro s
    cases s with
    | normal =>
      refine ⟨?_, fun h => absurd rfl h⟩
      by_cases hc : c = ':'
      · simpa [rdAux, hc] using (ih .colon).1
      · simpa [rdAux, hc] using
          noColonDigit_cons (fun h => absurd h hc) (ih .normal).1
    | colon =>
      by_cases hd : c.isDigit
      · constructor
        · simpa [rdAux, hd] using (ih .intPart).1
        · intro _; simpa [rdAux, hd] using (ih .intPart).2 (by simp)
      · by_cases hc : c = ':'
        · constructor
          · simpa [rdAux, hd, hc] using
              noColonDigit_cons (fun _ => (ih .colon).2 (by simp)) (ih .colon).1
          · intro _; simp [rdAux, hd, hc, headNotDigit]
        · constructor
          · have inner : noColonDigit (c :: rdAux .normal rest) = true :=
              noColonDigit_cons (fun h => absurd h hc) (ih .normal).1
            simpa [rdAux, hd, hc] using
              noColonDigit_cons (fun _ => by simpa [headNotDigit] using hd) inner
          · intro _; simp [rdAux, hd, hc, headNotDigit]
    | intPart =>
      by_cases hd : c.isDigit
      · constructor
        · simpa [rdAux, hd] using (ih .intPart).1
        · intro _; simpa [rdAux, hd] using (ih .intPart).2 (by simp)
      · by_cases hp : c = '.'
        · constructor
          · simpa [rdAux, hd, hp] using (ih .dot).1
          · intro _; simpa [rdAux, hd, hp] using (ih .dot).2 (by simp)
        · by_cases hc : c = ':'
          · constructor
            · simpa [rdAux, hd, hp, hc] using (ih .colon).1
            · intro _; simpa [rdAux, hd, hp, hc] using (ih .colon).2 (by simp)
          · constructor
            · simpa [rdAux, hd, hp, hc] using
                noColonDigit_cons (fun h => absurd h hc) (ih .normal).1
            · intro _; simp [rdAux, hd, hp, hc, headNotDigit]
    | dot =>
      by_cases hd : c.isDigit
      · constructor
        · simpa [rdAux, hd] using (ih .fracPart).1
        · intro _; simpa [rdAux, hd] using (ih .fracPart).2 (by simp)
      · by_cases hc : c = ':'
        · constructor
          · simpa [rdAux, hd, hc] using
              noColonDigit_cons (fun h => by simp at h) (ih .colon).1
          · intro _; simp [rdAux, hd, hc, headNotDigit]
        · constructor
          · have inner : noColonDigit (c :: rdAux .normal rest) = true :=
              noColonDigit_cons (fun h => absurd h hc) (ih .normal).1
            simpa [rdAux, hd, hc] using
              noColonDigit_cons (fun h => by simp at h) inner
          · intro _; simp [rdAux, hd, hc, headNotDigit]
    | fracPart =>
      by_cases hd : c.isDigit
      · constructor
        · simpa [rdAux, hd] using (ih .fracPart).1
        · intro _; simpa [rdAux, hd] using (ih .fracPart).2 (by simp)
      · by_cases hc : c = ':'
        · constructor
          · simpa [rdAux, hd, hc] using (ih .colon).1
          · intro _; simpa [rdAux, hd, hc] using (ih .colon).2 (by simp)
        · constructor
          · simpa [rdAux, hd, hc] using
              noColonDigit_cons (fun h => absurd h hc) (ih .normal).1
          · intro _; simp [rdAux, hd, hc, headNotDigit]

/-- On a string with no colon-digit pair, the `remove_distances` scanner is
the identity (and from the pending-colon state it just re-emits the colon). -/
theorem rdAux_id (l : Str) :
    (noColonDigit l = true → rdAux RDState.normal l = l) ∧
      (noColonDigit l = true → headNotDigit l = true →
        rdAux RDState.colon l = ':' :: l) := by
  induction l with
  | nil => exact ⟨fun _ => rfl, fun _ _ => rfl⟩
  | cons c rest ih =>
    constructor
    · intro h
      by_cases hc : c = ':'
      · subst hc
        have h1 := headNotDigit_of_colon_cons h
        have h2 := noColonDigit_of_cons h
        cases rest with
        | nil => simp [rdAux]
        | cons b t =>
          have hb : ¬ b.isDigit := by
            simpa [headNotDigit] using h1
          simpa [rdAux, hb] using ih.2 h2 h1
      · simpa [rdAux, hc] using ih.1 (noColonDigit_of_cons h)
    · intro h hh
      have hd : ¬ c.isDigit := by simpa [headNotDigit] using hh
      by_cases hc : c = ':'
      · subst hc
        have h1 := headNotDigit_of_colon_cons h
        have h2 := noColonDigit_of_cons h
        simpa [rdAux, hd] using ih.2 h2 h1
      · simpa [rdAux, hd, hc] using ih.1 (noColonDigit_of_cons h)

theorem nmAux_append_run {run : Str} (hr : run.all tokChar = true)
    (flag b : Bool) (x : Str) :
    nmAux flag b (run ++ x) = nmAux flag (b || !run.isEmpty) x := by
  induction run generalizing b with
  | nil => simp
  | cons c t iht =>
    simp only [List.all_cons, Bool.and_eq_true] at hr
    simp [nmAux, hr.1, iht hr.2]

theorem rtAux_append_run {run : Str} (hr : run.all tokChar = true)
    (flag : Bool) (pend x : Str) :
    rtAux flag pend (run ++ x) = rtAux flag (pend ++ run) x := by
  induction run generalizing pend with
  | nil => simp
  | cons c t iht =>
    simp only [List.all_cons, Bool.and_eq_true] at hr
    simp [rtAux, hr.1, iht hr.2]

/-- One pass of the `remove_taxa_from_newick` scanner leaves a string on
which a fresh pass deletes nothing. -/
theorem rtAux_nmAux (l : Str) :
    ∀ (flag : Bool) (pend : Str), pend.all tokChar = true →
      nmAux flag false (rtAux flag pend l) = true := by
  induction l with
  | nil =>
    intro flag pend hp
    calc nmAux flag false (rtAux flag pend [])
        = nmAux flag false (pend ++ []) := by simp [rtAux]
      _ = nmAux flag (false || !pend.isEmpty) [] := nmAux_append_run hp flag false []
      _ = true := rfl
  | cons c rest ih =>
    intro flag pend hp
    by_cases hc : tokChar c
    · simpa [rtAux, hc] using ih flag (pend ++ [c]) (by simp [List.all_append, hp, hc])
    · by_cases hm : (flag && delimAfter c && !pend.isEmpty) = true
      · simpa [rtAux, hc, hm, nmAux] using ih (delimBefore c) [] rfl
      · have hms : (flag && delimAfter c && !pend.isEmpty) = false := by
          simpa using hm
        have step : nmAux flag (false || !pend.isEmpty)
            (c :: rtAux (delimBefore c) [] rest) = true := by
          by_cases hpe : pend.isEmpty
          · simpa [nmAux, hc, hpe] using ih (delimBefore c) [] rfl
          · have hfa : (flag && delimAfter c) = false := by
              by_cases h : (flag && delimAfter c) = true
              · exact absurd (by simp [h, hpe]) hm
              · simpa using h
            simpa [nmAux, hc, hpe, hfa] using ih (delimBefore c) [] rfl
        have hflush : rtAux flag pend (c :: rest) =
            pend ++ c :: rtAux (delimBefore c) [] rest := by
          simp [rtAux, hc, hms]
        rw [hflush, nmAux_append_run hp]
        exact step

/-- On a string where a pass deletes nothing, the scanner just re-emits the
pending run and the rest of the string. -/
theorem rtAux_id (l : Str) :
    ∀ (flag : Bool) (pend : Str), pend.all tokChar = true →
      nmAux flag (!pend.isEmpty) l = true → rtAux flag pend l = pend ++ l := by
  induction l with
  | nil => intro flag pend _ _; simp [rtAux]
  | cons c rest ih =>
    intro flag pend hp hnm
    by_cases hc : tokChar c
    · have h2 : nmAux flag true rest = true := by
        simpa [nmAux, hc] using hnm
      have hrec : rtAux flag (pend ++ [c]) rest = (pend ++ [c]) ++ rest := by
        refine ih flag (pend ++ [c]) (by simp [List.all_append, hp, hc]) ?_
        have he : (pend ++ [c]).isEmpty = false := by simp
        rw [he]
        exact h2
      simp [rtAux, hc, hrec]
    · have hnm' : (!(flag && delimAfter c && !pend.isEmpty)) = true ∧
          nmAux (delimBefore c) false rest = true := by
        have h0 : nmAux flag (!pend.isEmpty) (c :: rest) =
            ((!(flag && delimAfter c && !pend.isEmpty)) &&
              nmAux (delimBefore c) false rest) := by
          simp [nmAux, hc]
        rw [h0] at hnm
        exact (Bool.and_eq_true _ _).mp hnm
      have hm : (flag && delimAfter c && !pend.isEmpty) = false := by
        by_cases h : (flag && delimAfter c && !pend.isEmpty) = true
        · rw [h] at hnm'
          exact absurd hnm'.1 (by simp)
        · simpa using h
      have htail : rtAux (delimBefore c) [] rest = rest := by
        simpa using ih (delimBefore c) [] rfl (by simpa using hnm'.2)
      simp [rtAux, hc, hm, htail]

theorem hcompose (a : Char) (as : Str) (b : Char) (bs : Str) :
    ((fun index => !((a :: as).getD index ' ' == (b :: bs).getD index ' ')) ∘
      Nat.succ) =
    (fun index => !(as.getD index ' ' == bs.getD index ' ')) := by
  funext i
  simp [Function.comp, List.getD_cons_succ]

theorem hamming_index_eq_zip (str1 str2 : Str) (h : str1.length = str2.length) :
    ((List.range str1.length).filter
      (fun index => !(str1.getD index ' ' == str2.getD index ' '))).length =
    (str1.zip str2).countP (fun p => !(p.1 == p.2)) := by
  induction str1 generalizing str2 with
  | nil =>
    cases str2 with
    | nil => simp
    | cons b bs => simp at h
  | cons a as ih =>
    cases str2 with
    | nil => simp at h
    | cons b bs =>
      have h' : as.length = bs.length := by simpa using h
      have hrange : List.range (a :: as).length =
          0 :: (List.range as.length).map Nat.succ := by
        simp [List.range_succ_eq_map]
      rw [hrange, List.filter_cons]
      by_cases hab : (a == b) = true
      · simp only [List.getD_cons_zero, hab, Bool.not_true, Bool.false_eq_true,
          if_false, List.zip_cons_cons, List.countP_cons, hab, Bool.not_true]
        rw [List.filter_map, List.length_map, hcompose a as b bs]
        exact ih bs h'
      · have hab' : (a == b) = false := by simpa using hab
        simp only [List.getD_cons_zero, hab', Bool.not_false, if_true,
          List.length_cons, List.zip_cons_cons, List.countP_cons, hab',
          Bool.not_false]
        rw [List.filter_map, List.length_map, hcompose a as b bs]
        exact congrArg (· + 1) (ih bs h')

theorem map_update_of_not_mem {l : List (Str × Str)} {k v : Str}
    (h : k ∉ l.map Prod.fst) :
    l.map (fun p => if p.1 = k then (k, v) else p) = l := by
  induction l with
  | nil => rfl
  | cons p rest ih =>
    simp only [List.map_cons, List.mem_cons, not_or] at h
    simp only [List.map_cons]
    rw [if_neg (fun hh => h.1 hh.symm), ih h.2]

theorem dinsert_keys_of_not_mem {d : List (Str × Str)} {k v : Str}
    (h : k ∉ d.map Prod.fst) :
    (dinsert d k v).map Prod.fst = d.map Prod.fst ++ [k] := by
  unfold dinsert
  rw [if_neg h]
  simp

theorem dinsert_keys_of_mem {d : List (Str × Str)} {k v : Str}
    (h : k ∈ d.map Prod.fst) :
    (dinsert d k v).map Prod.fst = d.map Prod.fst := by
  unfold dinsert
  rw [if_pos h, List.map_map]
  apply List.map_congr_left
  intro p _
  by_cases hp : p.1 = k
  · simp [Function.comp, hp]
  · simp [Function.comp, hp]

theorem dinsert_keys_nodup {d : List (Str × Str)} {k v : Str}
    (h : (d.map Prod.fst).Nodup) : ((dinsert d k v).map Prod.fst).Nodup := by
  by_cases hk : k ∈ d.map Prod.fst
  · rw [dinsert_keys_of_mem hk]
    exact h
  · rw [dinsert_keys_of_not_mem hk, List.nodup_append]
    refine ⟨h, List.nodup_singleton k, ?_⟩
    intro x hx hxk
    have hxe : x = k := by simpa using hxk
    exact hk (hxe ▸ hx)

theorem greedyStep_fst (st : List (Str × Str) × List Str) (o : Str) :
    ∃ v, (greedyStep st o).1 = dinsert st.1 o v := by
  rcases hbm : bestMatch o st.2 with _ | ⟨g, sc⟩
  · exact ⟨[], by simp [greedyStep, hbm]⟩
  · by_cases h : sc > 3/4
    · exact ⟨g, by simp [greedyStep, hbm, h]⟩
    · exact ⟨[], by simp [greedyStep, hbm, h]⟩

theorem greedy_fold_keys (l : List Str) :
    ∀ (pd : List (Str × Str)) (pool : List Str),
      (∀ x ∈ l, x ∉ pd.map Prod.fst) → l.Nodup →
      ((l.foldl greedyStep (pd, pool)).1).map Prod.fst =
        pd.map Prod.fst ++ l := by
  induction l with
  | nil => intro pd pool _ _; simp
  | cons o rest ih =>
    intro pd pool hfresh hnd
    obtain ⟨v, hv⟩ := greedyStep_fst (pd, pool) o
    have ho : o ∉ pd.map Prod.fst := hfresh o (List.mem_cons_self o rest)
    have hkeys : ((greedyStep (pd, pool) o).1).map Prod.fst =
        pd.map Prod.fst ++ [o] := by
      rw [hv]
      exact dinsert_keys_of_not_mem ho
    have hnd' := List.nodup_cons.mp hnd
    have hfresh' : ∀ x ∈ rest, x ∉ ((greedyStep (pd, pool) o).1).map Prod.fst := by
      intro x hx
      rw [hkeys]
      intro hmem
      rcases List.mem_append.mp hmem with hmem | hmem
      · exact hfresh x (List.mem_cons_of_mem o hx) hmem
      · have hxe : x = o := by simpa using hmem
        exact hnd'.1 (hxe ▸ hx)
    have hres := ih ((greedyStep (pd, pool) o).1) ((greedyStep (pd, pool) o).2)
      hfresh' hnd'.2
    rw [List.foldl_cons]
    have heta : rest.foldl greedyStep (greedyStep (pd, pool) o) =
        rest.foldl greedyStep
          ((greedyStep (pd, pool) o).1, (greedyStep (pd, pool) o).2) := rfl
    rw [heta, hres, hkeys, List.append_assoc, List.singleton_append]

theorem foldl_pickBetter_mem (o : Str) (gs : List Str) :
    ∀ (b : Str × ℚ) (S : List Str), b.1 ∈ S → (∀ x ∈ gs, x ∈ S) →
      (gs.foldl (pickBetter o) b).1 ∈ S := by
  induction gs with
  | nil => intro b S hb _; exact hb
  | cons g2 t ih =>
    intro b S hb hall
    rw [List.foldl_cons]
    apply ih
    · by_cases h : edit_distance_ratio o g2 > b.2
      · simpa [pickBetter, h] using hall g2 (List.mem_cons_self g2 t)
      · simpa [pickBetter, h] using hb
    · intro x hx
      exact hall x (List.mem_cons_of_mem g2 hx)

theorem bestMatch_mem {o g : Str} {sc : ℚ} {pool : List Str}
    (h : bestMatch o pool = some (g, sc)) : g ∈ pool := by
  cases pool with
  | nil => simp [bestMatch] at h
  | cons g0 gs =>
    have hfold : (gs.foldl (pickBetter o) (g0, edit_distance_ratio o g0)) =
        (g, sc) := by
      simpa [bestMatch] using h
    have hmem := foldl_pickBetter_mem o gs (g0, edit_distance_ratio o g0)
      (g0 :: gs) (List.mem_cons_self g0 gs)
      (fun x hx => List.mem_cons_of_mem g0 hx)
    rw [hfold] at hmem
    exact hmem

theorem keys_mem_decomp {d : List (Str × Str)} {k : Str}
    (hnd : (d.map Prod.fst).Nodup) (hk : k ∈ d.map Prod.fst) :
    ∃ pre v_old post, d = pre ++ (k, v_old) :: post ∧
      k ∉ pre.map Prod.fst ∧ k ∉ post.map Prod.fst := by
  induction d with
  | nil => simp at hk
  | cons p rest ih =>
    have hnd1 : (p.1 :: rest.map Prod.fst).Nodup := by simpa using hnd
    by_cases hp : p.1 = k
    · refine ⟨[], p.2, rest, ?_, by simp, ?_⟩
      · obtain ⟨p1, p2⟩ := p
        simp only at hp
        subst hp
        rfl
      · exact hp ▸ (List.nodup_cons.mp hnd1).1
    · have hk' : k ∈ rest.map Prod.fst := by
        have hk2 : k ∈ p.1 :: rest.map Prod.fst := by simpa using hk
        rcases List.mem_cons.mp hk2 with hh | hh
        · exact absurd hh.symm hp
        · exact hh
      obtain ⟨pre, v_old, post, heq, hpre, hpost⟩ :=
        ih (List.nodup_cons.mp hnd1).2 hk'
      refine ⟨p :: pre, v_old, post, by rw [heq]; rfl, ?_, hpost⟩
      simp only [List.map_cons, List.mem_cons, not_or]
      exact ⟨fun hh => hp hh.symm, hpre⟩

theorem dinsert_eq_update {pre post : List (Str × Str)} {k v_old v : Str}
    (hpre : k ∉ pre.map Prod.fst) (hpost : k ∉ post.map Prod.fst) :
    dinsert (pre ++ (k, v_old) :: post) k v = pre ++ (k, v) :: post := by
  unfold dinsert
  rw [if_pos (by simp), List.map_append, List.map_cons,
    map_update_of_not_mem hpre, map_update_of_not_mem hpost]
  simp

theorem dinsert_vcount_le (d : List (Str × Str)) (k g v : Str)
    (hnd : (d.map Prod.fst).Nodup) :
    vcount (dinsert d k g) v ≤ vcount d v + (if g = v then 1 else 0) := by
  by_cases hk : k ∈ d.map Prod.fst
  · obtain ⟨pre, v_old, post, heq, hpre, hpost⟩ := keys_mem_decomp hnd hk
    rw [heq, dinsert_eq_update hpre hpost]
    unfold vcount
    rw [List.map_append, List.map_cons, List.count_append, List.count_cons]
    conv_rhs => rw [List.map_append, List.map_cons, List.count_append,
      List.count_cons]
    simp only [beq_iff_eq]
    split_ifs <;> omega
  · have hins : dinsert d k g = d ++ [(k, g)] := by
      unfold dinsert
      rw [if_neg hk]
    rw [hins]
    unfold vcount
    rw [List.map_append, List.count_append]
    have hsing : (([(k, g)] : List (Str × Str)).map Prod.snd).count v =
        if g = v then 1 else 0 := by
      simp [List.count_cons, beq_iff_eq]
    rw [hsing]

theorem greedyStep_invariant (pd : List (Str × Str)) (pool : List Str)
    (o : Str) (hnd : (pd.map Prod.fst).Nodup) (v : Str) (hv : v ≠ []) :
    vcount ((greedyStep (pd, pool) o).1) v +
      ((greedyStep (pd, pool) o).2).count v ≤ vcount pd v + pool.count v := by
  have hempty : (if ([] : Str) = v then 1 else 0) = 0 :=
    if_neg (fun hh => hv hh.symm)
  rcases hbm : bestMatch o pool with _ | ⟨g, sc⟩
  · simp only [greedyStep, hbm]
    have h1 := dinsert_vcount_le pd o [] v hnd
    omega
  · by_cases hsc : sc > 3/4
    · simp only [greedyStep, hbm, if_pos hsc]
      have hg : g ∈ pool := bestMatch_mem hbm
      have h1 := dinsert_vcount_le pd o g v hnd
      have h2 : (pool.erase g).count v =
          pool.count v - (if g = v then 1 else 0) := by
        rw [List.count_erase]
        congr 1
        simp [beq_iff_eq]
      have h3 : (if g = v then 1 else 0) ≤ pool.count v := by
        split_ifs with h
        · exact h ▸ List.count_pos_iff.mpr hg
        · exact Nat.zero_le _
      omega
    · simp only [greedyStep, hbm, if_neg hsc]
      have h1 := dinsert_vcount_le pd o [] v hnd
      omega

theorem greedy_fold_vcount (l : List Str) :
    ∀ (pd : List (Str × Str)) (pool : List Str), (pd.map Prod.fst).Nodup →
      ∀ v : Str, v ≠ [] →
        vcount ((l.foldl greedyStep (pd, pool)).1) v +
          ((l.foldl greedyStep (pd, pool)).2).count v ≤
        vcount pd v + pool.count v := by
  induction l with
  | nil => intro pd pool _ v _; simp
  | cons o rest ih =>
    intro pd pool hnd v hv
    have hstep := greedyStep_invariant pd pool o hnd v hv
    have hnd' : (((greedyStep (pd, pool) o).1).map Prod.fst).Nodup := by
      obtain ⟨w, hw⟩ := greedyStep_fst (pd, pool) o
      rw [hw]
      exact dinsert_keys_nodup hnd
    have hrec := ih ((greedyStep (pd, pool) o).1) ((greedyStep (pd, pool) o).2)
      hnd' v hv
    rw [List.foldl_cons]
    have heta : rest.foldl greedyStep (greedyStep (pd, pool) o) =
        rest.foldl greedyStep
          ((greedyStep (pd, pool) o).1, (greedyStep (pd, pool) o).2) := rfl
    rw [heta]
    omega

theorem greedy_length_of_orig_nodup (orig gen : List Str) (h : orig.Nodup) :
    (get_taxon_pairs_greedy orig gen).length = orig.length := by
  have hk := greedy_fold_keys orig ([] : List (Str × Str)) gen
    (by simp) h
  have hlen := congrArg List.length hk
  simpa [get_taxon_pairs_greedy] using hlen

theorem count_le_one_of_nodup {l : List Str} (h : l.Nodup) (v : Str) :
    l.count v ≤ 1 := by
  induction l with
  | nil => simp
  | cons a t ih =>
    have h' := List.nodup_cons.mp h
    rw [List.count_cons]
    by_cases hav : a = v
    · have hz : t.count v = 0 := by
        rw [List.count_eq_zero]
        exact fun hm => h'.1 (hav ▸ hm)
      simp [hz, hav]
    · have hb : (a == v) = false := by simpa using hav
      simpa [hb] using ih h'.2

theorem nodup_of_count_le_one {l : List Str} (h : ∀ v, l.count v ≤ 1) :
    l.Nodup := by
  induction l with
  | nil => exact List.nodup_nil
  | cons a t ih =>
    rw [List.nodup_cons]
    constructor
    · intro hm
      have ha := h a
      rw [List.count_cons] at ha
      have hpos : 0 < t.count a := List.count_pos_iff.mpr hm
      simp only [beq_self_eq_true, if_true] at ha
      omega
    · apply ih
      intro v
      have hv := h v
      rw [List.count_cons] at hv
      omega

theorem nonemptyVals_nodup_of_gen_nodup (orig gen : List Str)
    (hg : gen.Nodup) :
    (nonemptyVals (get_taxon_pairs_greedy orig gen)).Nodup := by
  apply nodup_of_count_le_one
  intro v
  by_cases hv : v = []
  · have hnot : v ∉ nonemptyVals (get_taxon_pairs_greedy orig gen) := by
      intro hmem
      have hpred := List.of_mem_filter hmem
      rw [hv] at hpred
      simp at hpred
    rw [List.count_eq_zero.mpr hnot]
    exact Nat.zero_le 1
  · have hcount : (nonemptyVals (get_taxon_pairs_greedy orig gen)).count v =
        vcount (get_taxon_pairs_greedy orig gen) v := by
      unfold nonemptyVals vcount
      exact List.count_filter (by simpa using hv)
    rw [hcount]
    have hb := greedy_fold_vcount orig ([] : List (Str × Str)) gen
      (by simp) v hv
    have hgen : gen.count v ≤ 1 := count_le_one_of_nodup hg v
    have hz : vcount ([] : List (Str × Str)) v = 0 := rfl
    unfold get_taxon_pairs_greedy
    omega

theorem gtAux_append_run {run : Str} (hr : run.all tokChar = true)
    (flag : Bool) (pend x : Str) :
    gtAux flag pend (run ++ x) = gtAux flag (pend ++ run) x := by
  induction run generalizing pend with
  | nil => simp
  | cons c t iht =>
    simp only [List.all_cons, Bool.and_eq_true] at hr
    simp [gtAux, hr.1, iht hr.2]

theorem not_tok_of_delimAfter {c : Char} (h : delimAfter c = true) :
    tokChar c = false := by
  have hc : (c = ':' ∨ c = ')') ∨ c = ',' := by
    simpa [delimAfter] using h
  rcases hc with (rfl | rfl) | rfl <;> decide

/-- Scanning a `:length` suffix followed by a delimiter with the
lookbehind flag off emits nothing. -/
theorem gtAux_false_dist (dist : Option Str) (hw : wfDist dist = true)
    (d : Char) (hd : tokChar d = false) (s2 : Str) :
    gtAux false [] (serDist dist ++ d :: s2) =
      gtAux (delimBefore d) [] s2 := by
  cases dist with
  | none => simp [serDist, gtAux, hd]
  | some ds =>
    simp only [wfDist, Bool.and_eq_true] at hw
    have hcolon : gtAux false [] ((':' :: ds) ++ d :: s2) =
        gtAux false [] (ds ++ d :: s2) := by
      simp [gtAux, tokChar, delimBefore]
    rw [serDist, hcolon, gtAux_append_run hw.2]
    simp [gtAux, hd]

mutual
/-- Scanning the serialization of a well-formed tree that is preceded by
`(` or `,` (flag on) and followed by a delimiter collects exactly its leaf
labels, in order. -/
theorem scanSerT (t : NTree) (hw : wfT t = true) (d : Char)
    (hd : delimAfter d = true) (s2 : Str) :
    gtAux true [] (serT t ++ d :: s2) =
      leafNamesT t ++ gtAux (delimBefore d) [] s2 := by
  have hdt := not_tok_of_delimAfter hd
  cases t with
  | leaf n dist =>
    simp only [wfT, Bool.and_eq_true] at hw
    obtain ⟨⟨hne, htok⟩, hdist⟩ := hw
    cases dist with
    | none =>
      have hser : serT (.leaf n none) ++ d :: s2 = n ++ d :: s2 := by
        simp [serT, serDist]
      rw [hser, gtAux_append_run htok]
      simp [gtAux, hdt, hd, hne, leafNamesT]
    | some ds =>
      have hds : (!ds.isEmpty && ds.all tokChar) = true := by
        simpa [wfDist] using hdist
      have hser : serT (.leaf n (some ds)) ++ d :: s2 =
          n ++ ':' :: (ds ++ d :: s2) := by
        simp [serT, serDist]
      have h1 : tokChar ':' = false := by decide
      have h2 : delimAfter ':' = true := by decide
      have h3 : delimBefore ':' = false := by decide
      rw [hser, gtAux_append_run htok]
      simp only [List.nil_append]
      have hem : gtAux true n (':' :: (ds ++ d :: s2)) =
          [n] ++ gtAux false [] (ds ++ d :: s2) := by
        simp [gtAux, h1, h2, h3, hne]
      rw [hem, gtAux_append_run ((Bool.and_eq_true _ _).mp hds).2]
      simp [gtAux, hdt, leafNamesT]
  | node cs dist =>
    simp only [wfT, Bool.and_eq_true] at hw
    have hassoc : serT (.node cs dist) ++ d :: s2 =
        '(' :: (serF cs ++ ')' :: (serDist dist ++ d :: s2)) := by
      simp [serT]
    have h1 : tokChar '(' = false := by decide
    have h2 : delimAfter '(' = false := by decide
    have h3 : delimBefore '(' = true := by decide
    have hopen : gtAux true []
        ('(' :: (serF cs ++ ')' :: (serDist dist ++ d :: s2))) =
        gtAux true [] (serF cs ++ ')' :: (serDist dist ++ d :: s2)) := by
      simp [gtAux, h1, h2, h3]
    rw [hassoc, hopen, scanSerF cs hw.1 ')' (by decide)
      (serDist dist ++ d :: s2),
      show delimBefore ')' = false from by decide,
      gtAux_false_dist dist hw.2 d hdt s2]
    rfl

/-- Scanning a serialized well-formed child list followed by a delimiter
collects the leaf labels of the children, in order. -/
theorem scanSerF (cs : NForest) (hw : wfF cs = true) (d : Char)
    (hd : delimAfter d = true) (X : Str) :
    gtAux true [] (serF cs ++ d :: X) =
      leafNamesF cs ++ gtAux (delimBefore d) [] X := by
  have hdt := not_tok_of_delimAfter hd
  cases cs with
  | fnil => simp [serF, gtAux, hdt, leafNamesF]
  | fcons t ts =>
    cases ts with
    | fnil =>
      simp only [wfF, Bool.and_eq_true] at hw
      rw [show serF (.fcons t .fnil) = serT t from rfl,
        scanSerT t hw.1 d hd X]
      simp [leafNamesF]
    | fcons t2 ts2 =>
      rw [show wfF (.fcons t (.fcons t2 ts2)) =
          (wfT t && wfF (.fcons t2 ts2)) from rfl] at hw
      have hw2 := (Bool.and_eq_true _ _).mp hw
      have hassoc : serF (.fcons t (.fcons t2 ts2)) ++ d :: X =
          serT t ++ ',' :: (serF (.fcons t2 ts2) ++ d :: X) := by
        simp [serF]
      rw [hassoc, scanSerT t hw2.1 ',' (by decide)
        (serF (.fcons t2 ts2) ++ d :: X),
        show delimBefore ',' = true from by decide,
        scanSerF (.fcons t2 ts2) hw2.2 d hd X]
      simp [leafNamesF, List.append_assoc]
end

mutual
/-- Each leaf contributes exactly one label. -/
theorem leafNamesT_length (t : NTree) :
    (leafNamesT t).length = leafCountT t := by
  cases t with
  | leaf n d => rfl
  | node cs d =>
    rw [show leafNamesT (.node cs d) = leafNamesF cs from rfl,
      show leafCountT (.node cs d) = leafCountF cs from rfl]
    exact leafNamesF_length cs

theorem leafNamesF_length (cs : NForest) :
    (leafNamesF cs).length = leafCountF cs := by
  cases cs with
  | fnil => rfl
  | fcons t ts =>
    rw [show leafNamesF (.fcons t ts) = leafNamesT t ++ leafNamesF ts
        from rfl, List.length_append, leafNamesT_length t,
      leafNamesF_length ts]
    rfl
end

/-- C6 (amended): for a Newick document serialized from a well-formed
labelled tree whose root is an internal node — every leaf carries a
non-empty label of allowed characters — `get_taxa` returns exactly the leaf
labels in left-to-right document order, and its length equals the
document's leaf count.  (The restriction is forced: a topology-only
document has empty labels and `get_taxa` returns `[]`, and a root that is a
single leaf has no `(`/`,` before its label.) -/
theorem C6_get_taxa_leaf_labels (cs : NForest) (dist : Option Str)
    (hw : wfT (NTree.node cs dist) = true) :
    get_taxa (serT (NTree.node cs dist) ++ [';']) =
      leafNamesT (NTree.node cs dist) ∧
    (get_taxa (serT (NTree.node cs dist) ++ [';'])).length =
      leafCountT (NTree.node cs dist) := by
  rw [show wfT (.node cs dist) = (wfF cs && wfDist dist) from rfl] at hw
  have hw' := (Bool.and_eq_true _ _).mp hw
  have hmain : get_taxa (serT (NTree.node cs dist) ++ [';']) =
      leafNamesT (NTree.node cs dist) := by
    unfold get_taxa
    have hassoc : serT (.node cs dist) ++ [';'] =
        '(' :: (serF cs ++ ')' :: (serDist dist ++ ';' :: [])) := by
      simp [serT]
    have h1 : tokChar '(' = false := by decide
    have h2 : delimAfter '(' = false := by decide
    have h3 : delimBefore '(' = true := by decide
    have hopen : gtAux false []
        ('(' :: (serF cs ++ ')' :: (serDist dist ++ ';' :: []))) =
        gtAux true [] (serF cs ++ ')' :: (serDist dist ++ ';' :: [])) := by
      simp [gtAux, h1, h2, h3]
    rw [hassoc, hopen,
      scanSerF cs hw'.1 ')' (by decide) (serDist dist ++ ';' :: []),
      show delimBefore ')' = false from by decide,
      gtAux_false_dist dist hw'.2 ';' (by decide) []]
    simp [gtAux, leafNamesT]
  refine ⟨hmain, ?_⟩
  rw [hmain]
  exact leafNamesT_length _

/-- Witness for C6: the document `(A:1,B:2);` of a two-leaf tree yields the
labels `[A, B]`, of length the leaf count 2. -/
theorem C6_get_taxa_leaf_labels_witness :
    get_taxa "(A:1,B:2);".data = ["A".data, "B".data] ∧
    (get_taxa "(A:1,B:2);".data).length =
      leafCountT (NTree.node sampleForest none) := by
  have hdoc : serT (NTree.node sampleForest none) ++ [';'] =
      "(A:1,B:2);".data := by decide
  have h := C6_get_taxa_leaf_labels sampleForest none (by decide)
  constructor
  · rw [← hdoc]
    exact h.1.trans (by decide)
  · rw [← hdoc]
    exact h.2

/-- C6 counterexample: the topology-only document `((,),(,));` — accepted
by the repository's classifier as format 100 and the serialization of a
4-leaf tree — yields `get_taxa = []`, whose length 0 differs from the leaf
count 4. -/
theorem C6_topology_only_fails :
    serT topoOnlyTree ++ [';'] = "((,),(,));".data ∧
    leafCountT topoOnlyTree = 4 ∧
    get_taxa "((,),(,));".data = [] ∧
    (get_taxa "((,),(,));".data).length ≠ leafCountT topoOnlyTree :=
  ⟨by decide, by decide, by decide, by decide⟩

/-! ## Claims C2, C3, C9 -/
theorem correct_spelling_noop (taxa_pairs : List (Str × Str))
    (generated : Str) : correct_spelling taxa_pairs generated = generated := by
  induction taxa_pairs with
  | nil => rfl
  | cons p t ih => exact ih

/-- C2: the spelling-correction step of `compare_topology` and
`compare_distances` never happens: the loop calls `str.replace` but
discards its result, so the generated text enters the structural metrics
unchanged.  At the pair map `{B ↦ X}` and generated text `(A:1,X:1);` the
claimed renaming would produce `(A:1,B:1);`, but the code's loop returns
the input unchanged. -/
theorem C2_rename_is_discarded :
    (∀ (taxa_pairs : List (Str × Str)) (generated : Str),
      correct_spelling taxa_pairs generated = generated) ∧
    correct_spelling_spec [("B".data, "X".data)] "(A:1,X:1);".data =
      "(A:1,B:1);".data ∧
    correct_spelling [("B".data, "X".data)] "(A:1,X:1);".data ≠
      correct_spelling_spec [("B".data, "X".data)] "(A:1,X:1);".data :=
  ⟨correct_spelling_noop, by decide, by decide⟩

unseal Rat.add Rat.sub Rat.mul Rat.inv in
/-- C9 counterexample: at `max_rf = 0` the `rf_ratio` computation raises
`ZeroDivisionError`; it does not define `rf_ratio = 1` as the claim
states. -/
theorem C9_max_rf_zero_raises :
    compare_topology_calc 0 0 0 1 1 0 0 = .error .zeroDivision ∧
      ∀ d : TopoDict, compare_topology_calc 0 0 0 1 1 0 0 ≠ .ok d := by
  constructor
  · decide
  · intro d h
    rw [show compare_topology_calc 0 0 0 1 1 0 0 = .error .zeroDivision
      from by decide] at h
    exact Except.noConfusion h

/-- C9 (amended): when `max_rf ≠ 0` (and the original tree has edges)
`compare_topology` publishes `rf_ratio = round(1 - rf/max_rf, 4)`; there is
no guard for `max_rf = 0`, which raises `ZeroDivisionError` instead of
defining `rf_ratio = 1`. -/
theorem C9_rf_ratio_formula (rf max_rf ref_q : ℚ) (nr nc mo mg : ℕ) :
    (max_rf ≠ 0 → nr ≠ 0 →
      ∃ d : TopoDict,
        compare_topology_calc rf max_rf ref_q nr nc mo mg = .ok d ∧
        d.rf_ratio = round4 (1 - rf / max_rf)) ∧
    (max_rf = 0 →
      compare_topology_calc rf max_rf ref_q nr nc mo mg =
        .error .zeroDivision) := by
  constructor
  · intro hm hn
    unfold compare_topology_calc
    rw [if_neg hm, if_neg hn]
    exact ⟨_, rfl, rfl⟩
  · intro hm
    unfold compare_topology_calc
    rw [if_pos hm]

unseal Rat.add Rat.sub Rat.mul Rat.inv in
/-- Witness for C9: `rf = 1`, `max_rf = 2` gives `rf_ratio = 0.5`. -/
theorem C9_rf_ratio_formula_witness :
    ∃ d : TopoDict, compare_topology_calc 1 2 0 2 1 0 0 = .ok d ∧
      d.rf_ratio = round4 (1 - 1 / 2) :=
  (C9_rf_ratio_formula 1 2 0 2 1 0 0).1 (by decide) (by decide)

theorem rstripNewline_eq_self {l : Str} (h : l.getLast? = some '\t') :
    rstripNewline l = l := by
  unfold rstripNewline
  rw [List.getLast?_eq_head?_reverse] at h
  have hdw : l.reverse.dropWhile (fun c => c = '\n') = l.reverse := by
    cases hr : l.reverse with
    | nil => simp
    | cons c t =>
      rw [hr] at h
      have hc : c = '\t' := by simpa using h
      subst hc
      simp [List.dropWhile_cons]
  rw [hdw, List.reverse_reverse]

set_option maxRecDepth 8000 in
unseal Rat.add Rat.sub Rat.mul Rat.inv in
/-- C3 counterexample: compare a topology-only input (format 100) against a
full input (format 5).  `main` computes none of the metric groups (the
`TODO` branch) and the emitted row has every metric column — the topology
columns included — equal to the sentinel `None`, not populated with
computed values. -/
theorem C3_topology_columns_are_none :
    choose_metrics 100 5 zeroTaxaDict zeroDistDict zeroTopoDict =
      (none, none, none) ∧
    get_tsv_entry "a".data "b".data 100 5 none (fun _ => []) none none none =
      ("a\tb\t100\t5\t" ++
       "None\tNone\tNone\tNone\tNone\tNone\tNone\tNone\tNone\tNone\tNone\t" ++
       "None\tNone\tNone\tNone\tNone\tNone\tNone\tNone\tNone\tNone\tNone\t" ++
       "None\tNone\tNone\tNone\tNone\tNone\tNone\tNone\t" ++ "\n").data :=
  ⟨by decide, by decide⟩

theorem rstripNewline_append_noneCells (x : Str) :
    rstripNewline (x ++ noneCells30) = x ++ noneCells30 := by
  apply rstripNewline_eq_self
  rw [List.getLast?_append,
    show noneCells30.getLast? = some '\t' from by decide]
  rfl

/-- C3 (amended): when one input classifies as topology-only (format 100)
and the other is a full format (neither is taxa-only, format 9), `main`
computes none of the three metric groups — the source's `TODO` branch — and
the emitted row carries the sentinel `None` in every metric column: the
distance columns as the claim says, but also all topology columns, which
are not populated (and the `None` filler runs have 11/11/8 cells for the
taxa/distance/topology blocks, the distance run not matching its 8-column
header). -/
theorem C3_topo_only_row_all_none (fo fg : ℕ) (t : TaxaDict) (d : DistDict)
    (tp : TopoDict) (h100 : fo = 100 ∨ fg = 100) (h9o : fo ≠ 9)
    (h9g : fg ≠ 9) :
    choose_metrics fo fg t d tp = (none, none, none) ∧
    ∀ (n1 n2 : Str) (showQ : ℚ → Str),
      get_tsv_entry n1 n2 fo fg none showQ none none none =
        n1 ++ '\t' :: n2 ++ '\t' :: natStr fo ++ '\t' :: natStr fg ++
          '\t' :: allNoneCells := by
  constructor
  · have ht : ¬(fo = 9 ∨ fg = 9) := by
      rintro (h | h)
      · exact h9o h
      · exact h9g h
    simp only [choose_metrics]
    rw [if_neg ht, if_pos h100]
  · intro n1 n2 showQ
    have hblocks : taxaBlock showQ none ++ distBlock showQ none ++
        topoBlock showQ none ++ ([] : Str) = noneCells30 := by
      simp only [taxaBlock, distBlock, topoBlock]
      decide
    simp only [get_tsv_entry]
    rw [hblocks]
    have hassoc : (n1 ++ '\t' :: n2 ++ '\t' :: natStr fo ++ '\t' ::
        natStr fg ++ '\t' :: noneCells30) =
        (n1 ++ '\t' :: n2 ++ '\t' :: natStr fo ++ '\t' :: natStr fg ++
          ['\t']) ++ noneCells30 := by
      simp
    rw [hassoc, rstripNewline_append_noneCells]
    simp [allNoneCells]

/-- Witness for C3 (amended), at formats 100 (topology-only) against 5
(full): the row is the all-`None` row. -/
theorem C3_topo_only_row_witness :
    choose_metrics 100 5 zeroTaxaDict zeroDistDict zeroTopoDict =
      (none, none, none) ∧
    get_tsv_entry "a".data "b".data 100 5 none (fun _ => []) none none none =
      "a".data ++ '\t' :: "b".data ++ '\t' :: natStr 100 ++ '\t' ::
        natStr 5 ++ '\t' :: allNoneCells := by
  have h := C3_topo_only_row_all_none 100 5 zeroTaxaDict zeroDistDict
    zeroTopoDict (Or.inl rfl) (by decide) (by decide)
  exact ⟨h.1, h.2 "a".data "b".data (fun _ => [])⟩

/-! ## Claims C1, C7, C8 -/
unseal Rat.add Rat.sub Rat.mul Rat.inv in
/-- C1: evaluation of `compare_taxa` at taxa `[AAAA, BBBB]` against
`[AAAA, XYZQ]` (one matched pair, one unmatched pair, accumulated edit
distance 4, accumulated edit ratio 1).  The code publishes
`mean_edit_distance = 4/2 = 2` (divided by ALL pairs) and
`mean_edit_distance_total = 4/1 = 4` (divided by the MATCHED pairs): the two
denominators are swapped relative to the claim and to the code's own
comments, while the ratio pair is as claimed
(`mean_edit_ratio = 1/1 = 1` over matched pairs,
`mean_edit_ratio_total = 1/2` over all pairs). -/
theorem C1_mean_edit_denominators_swapped :
    compare_taxa "(AAAA:1,BBBB:1);".data "(AAAA:1,XYZQ:1);".data =
      .ok { taxa_count_original := 2
            taxa_count_generated := 2
            correct_taxa_ratio := 1/2
            count_equal_length := 1
            count_unequal_length := 0
            mismatches := ["BBBB".data]
            mean_hamming_distance := 2
            mean_hamming_distance_ratio := 1/2
            mean_edit_distance := 2
            mean_edit_distance_total := 4
            mean_edit_ratio := 1
            mean_edit_ratio_total := 1/2 } ∧
    (2 : ℚ) = 4 / 2 ∧ (4 : ℚ) = 4 / 1 := by
  refine ⟨by decide, by norm_num, by norm_num⟩

unseal Rat.add Rat.sub Rat.mul Rat.inv in
/-- C8: `compare_taxa` does not reject degenerate inputs with a
`DegenerateInputError`; it raises `ZeroDivisionError`.  With no original
taxa (`";"`) the `correct_taxa_ratio` division fails; with every original
taxon unmatched the `mean_edit_distance_total` denominator
`len(taxon_pairs) - len(mismatches)` is zero. -/
theorem C8_degenerate_inputs_raise_zero_division :
    compare_taxa ";".data "(A:1,B:1);".data = .error .zeroDivision ∧
      compare_taxa "(AA:1,BB:1);".data "(XX:1,YY:1);".data =
        .error .zeroDivision := by
  exact ⟨by decide, by decide⟩

unseal Rat.add Rat.sub Rat.mul Rat.inv in
/-- C7 counterexample: with the duplicate original list `[A, A]` the map
has 1 entry, not `len(original) = 2` (dict keys collapse); with the
duplicate generated list `[AAAAA, AAAAA]` the originals `AAAAA` and `AAAAB`
are both assigned the value `AAAAA`, so the non-empty values are not
pairwise distinct. -/
theorem C7_guarantees_fail_on_duplicates :
    (get_taxon_pairs_greedy ["A".data, "A".data] []).length ≠ 2 ∧
      ¬ (nonemptyVals (get_taxon_pairs_greedy
        ["AAAAA".data, "AAAAB".data] ["AAAAA".data, "AAAAA".data])).Nodup := by
  exact ⟨by decide, by decide⟩

/-- C7 (amended): when the original taxon list has no duplicates the map
produced by `get_taxon_pairs_greedy` has exactly `len(original)` entries,
and when the generated taxon list has no duplicates its non-empty values
are pairwise distinct.  (The unamended guarantees fail under duplicate
taxa, which the data model explicitly permits.) -/
theorem C7_greedy_guarantees (original_taxa generated_taxa : List Str) :
    (original_taxa.Nodup →
      (get_taxon_pairs_greedy original_taxa generated_taxa).length =
        original_taxa.length) ∧
    (generated_taxa.Nodup →
      (nonemptyVals (get_taxon_pairs_greedy original_taxa
        generated_taxa)).Nodup) :=
  ⟨greedy_length_of_orig_nodup original_taxa generated_taxa,
   nonemptyVals_nodup_of_gen_nodup original_taxa generated_taxa⟩

unseal Rat.add Rat.sub Rat.mul Rat.inv in
/-- Witness for C7: on the duplicate-free lists `[A, B]` and `[A, X]` the
map has two entries and its non-empty values (`A` alone: `B` has no match
above the 0.75 threshold) are distinct. -/
theorem C7_greedy_guarantees_witness :
    (get_taxon_pairs_greedy ["A".data, "B".data] ["A".data, "X".data]).length
        = 2 ∧
      (nonemptyVals (get_taxon_pairs_greedy ["A".data, "B".data]
        ["A".data, "X".data])).Nodup := by
  constructor
  · exact ((C7_greedy_guarantees ["A".data, "B".data]
      ["A".data, "X".data]).1 (by decide)).trans (by decide)
  · exact (C7_greedy_guarantees ["A".data, "B".data]
      ["A".data, "X".data]).2 (by decide)

/-! ## Claim C4, C5, C10 -/
/-- C4 (amended): `remove_distances` and `remove_taxa_from_newick` are
idempotent on every input string, but `strip_support_values`
(`remove_support_vals`) is not: one application deletes only the first digit
of a multi-digit support value, so a second application changes the string
again (here on `((A,B)42,C);`). -/
theorem C4_text_transform_idempotence :
    (∀ t : Str, remove_distances (remove_distances t) = remove_distances t) ∧
      (∀ t : Str, remove_taxa_from_newick (remove_taxa_from_newick t) =
        remove_taxa_from_newick t) ∧
      remove_support_vals (remove_support_vals "((A,B)42,C);".data) ≠
        remove_support_vals "((A,B)42,C);".data := by
  refine ⟨fun t => ?_, fun t => ?_, by decide⟩
  · exact (rdAux_id (rdAux RDState.normal t)).1 (rdAux_noColonDigit t .normal).1
  · have h := rtAux_nmAux t false [] rfl
    have hid := rtAux_id (rtAux false [] t) false [] rfl (by simpa using h)
    simpa using hid

/-- C4 counterexample: `strip_support_values` (`remove_support_vals`) is not
idempotent.  On `((A,B)95,C);` the first application yields `((A,B)5,C);`
(only the digit directly after `)` matches the lookbehind pattern) and the
second application deletes the remaining `5`. -/
theorem C4_strip_support_not_idempotent :
    remove_support_vals (remove_support_vals "((A,B)95,C);".data) ≠
      remove_support_vals "((A,B)95,C);".data := by decide

/-- C5: `get_newick_format` returns the first format in the fixed priority
order `100` (topology-only), `9` (taxa-only), `5` (full with branch
lengths), `0` (flexible with support) under which the parser succeeds; in
particular every string parsing as topology-only is classified `100`
regardless of the other grammars, and a string accepted by none of the four
formats raises `ValueError`. -/
theorem C5_format_priority (p : ℕ → Str → Bool) (t : Str) :
    get_newick_format p t = firstAcceptedFormat p t ∧
      (p 100 t = true → get_newick_format p t = .ok 100) ∧
      ((∀ f ∈ ([100, 9, 5, 0] : List ℕ), p f t = false) →
        get_newick_format p t = .error "Newick is not valid.".data) := by
  refine ⟨?_, ?_, ?_⟩
  · cases h100 : p 100 t <;> cases h9 : p 9 t <;> cases h5 : p 5 t <;>
      cases h0 : p 0 t <;>
      simp [get_newick_format, firstAcceptedFormat, is_newick, h100, h9, h5, h0]
  · intro h
    simp [get_newick_format, is_newick, h]
  · intro h
    simp [get_newick_format, is_newick, h 100 (by simp), h 9 (by simp),
      h 5 (by simp), h 0 (by simp)]

/-- Witness for C5: with an oracle accepting exactly format 100 the
classifier answers 100; with an all-rejecting oracle it raises the
`ValueError` message. -/
theorem C5_format_priority_witness :
    get_newick_format (fun f _ => decide (f = 100)) "(,);".data = .ok 100 ∧
      get_newick_format (fun _ _ => false) "(,);".data =
        .error "Newick is not valid.".data :=
  ⟨(C5_format_priority (fun f _ => decide (f = 100)) "(,);".data).2.1 (by decide),
   (C5_format_priority (fun _ _ => false) "(,);".data).2.2 (by decide)⟩

/-- C10: `hamming_distance` raises `ValueError` whenever the two strings
have different lengths (it never returns a `None`-like value), and on
equal-length strings it returns the number of positions at which they
differ, which is at most the common length. -/
theorem C10_hamming_distance_spec (str1 str2 : Str) :
    (str1.length ≠ str2.length →
      hamming_distance str1 str2 = .error .valueError) ∧
      (str1.length = str2.length →
        hamming_distance str1 str2 =
          .ok ((str1.zip str2).countP (fun p => !(p.1 == p.2))) ∧
        (str1.zip str2).countP (fun p => !(p.1 == p.2)) ≤ str1.length) := by
  constructor
  · intro h
    simp [hamming_distance, h]
  · intro h
    constructor
    · unfold hamming_distance
      rw [if_neg (by simp [h])]
      exact congrArg Except.ok (hamming_index_eq_zip str1 str2 h)
    · calc (str1.zip str2).countP (fun p => !(p.1 == p.2))
          ≤ (str1.zip str2).length := List.countP_le_length _
        _ ≤ str1.length := by
            rw [List.length_zip]
            exact min_le_left _ _

/-- Witness for C10: a concrete equal-length pair with one differing
position, and a concrete unequal-length pair raising `ValueError`. -/
theorem C10_hamming_distance_witness :
    hamming_distance "abc".data "abd".data = .ok 1 ∧
      hamming_distance "ab".data "abc".data = .error .valueError := by
  constructor
  · have hc : ("abc".data.zip "abd".data).countP (fun p => !(p.1 == p.2)) = 1 := by
      decide
    exact ((C10_hamming_distance_spec "abc".data "abd".data).2 (by decide)).1.trans
      (congrArg Except.ok hc)
  · exact (C10_hamming_distance_spec "ab".data "abc".data).1 (by decide)

end PhyloSpec
